import Mathlib

set_option exponentiation.threshold 1200
set_option maxRecDepth 4000

/-!
Verification of the measurement normalization engine of AgentDank/dank-extract
(sources/us/ct/application.go).

The Go code stores a measurement in a single float64 field, using in-band
sentinel values: 0.0 for "empty", NaN for "zero", and negative infinity for
"trace".  We embed the float64 values the code can actually hold as a sum of
an exact rational (finite values), NaN, and the two infinities, with IEEE-754
comparison semantics (NaN compares false with everything, including itself).
Finite values are carried as exact rationals: the binary64 rounding of parsed
decimals is abstracted away, which is only visible in claims that already
speak of floating-point tolerance.  Go has a signed zero, but 0 == -0 in Go
and the code normalizes any parsed 0 through measureSentinelize, so a single
zero suffices.
-/

/-- Model of the float64 values flowing through the Measure code: an exact
rational, NaN, or an infinity (`inf true` is negative infinity). -/
inductive GoFloat where
  | finite (q : ℚ)
  | nan
  | inf (neg : Bool)
deriving DecidableEq, Repr

/-- Go `==` on float64: NaN is not equal to anything, infinities compare by
sign, finite values compare exactly. -/
def goEq : GoFloat → GoFloat → Bool
  | .finite a, .finite b => decide (a = b)
  | .inf a, .inf b => decide (a = b)
  | _, _ => false

/-- Go `<` on float64 (IEEE: any comparison involving NaN is false). -/
def goLt : GoFloat → GoFloat → Bool
  | .nan, _ => false
  | _, .nan => false
  | .finite a, .finite b => decide (a < b)
  | .finite _, .inf b => !b
  | .inf b, .finite _ => b
  | .inf a, .inf b => a && !b

/-- Go `<=` on float64 (IEEE: any comparison involving NaN is false). -/
def goLe : GoFloat → GoFloat → Bool
  | .nan, _ => false
  | _, .nan => false
  | .finite a, .finite b => decide (a ≤ b)
  | .finite _, .inf b => !b
  | .inf b, .finite _ => b
  | .inf a, .inf b => a || !b

/-- Sentinel value for Empty, which is nil-value (Go: `0.0`). -/
def measureEmptySentinel : GoFloat := .finite 0

/-- Sentinel value for Zero (Go: `math.NaN()`). -/
def measureZeroSentinel : GoFloat := .nan

/-- Sentinel value for Trace (Go: `math.Inf(-1)`). -/
def measureTraceSentinel : GoFloat := .inf true

/-- Go `measureSentinelize`: 0 becomes the Zero sentinel (NaN), negative
values become the Trace sentinel (negative infinity). -/
def measureSentinelize (amount : GoFloat) : GoFloat :=
  if goEq amount (.finite 0) = true then measureZeroSentinel
  else if goLt amount (.finite 0) = true then measureTraceSentinel
  else amount

/-- Go `Measure`: a measurement, with sentinel values for the non-numeric
states stored in the single `amount` field. -/
structure Measure where
  amount : GoFloat
deriving DecidableEq, Repr

/-- Go `NewMeasure`. -/
def NewMeasure (amount : GoFloat) : Measure :=
  ⟨measureSentinelize amount⟩

/-- Go `NewEmptyMeasure`. -/
def NewEmptyMeasure : Measure := ⟨measureEmptySentinel⟩

/-- Go `NewTraceMeasure`. -/
def NewTraceMeasure : Measure := ⟨measureTraceSentinel⟩

/-- Go `Measure.IsEmpty`: `m.amount == measureEmptySentinel`. -/
def Measure.IsEmpty (m : Measure) : Bool :=
  goEq m.amount measureEmptySentinel

/-- Go `Measure.IsTrace`: `math.IsInf(m.amount, -1)`. -/
def Measure.IsTrace (m : Measure) : Bool :=
  match m.amount with
  | .inf true => true
  | _ => false

/-- Go `Measure.IsZero`: `math.IsNaN(m.amount)`. -/
def Measure.IsZero (m : Measure) : Bool :=
  match m.amount with
  | .nan => true
  | _ => false

/-- Go `Measure.IsValidPercent`: Zero, Empty and Trace are valid; otherwise
the amount must satisfy `amount >= 0 && amount <= 100`. -/
def Measure.IsValidPercent (m : Measure) : Bool :=
  if (m.IsZero || m.IsEmpty || m.IsTrace) = true then true
  else goLe (.finite 0) m.amount && goLe m.amount (.finite 100)

/-- The Numeric state of the spec's four-state data model: the fall-through
state of the code's three predicates (a nonzero finite amount, or positive
infinity, which none of the sentinel tests recognize). -/
def Measure.IsNumeric (m : Measure) : Bool :=
  match m.amount with
  | .finite q => decide (q ≠ 0)
  | .nan => false
  | .inf b => !b

/-!
String helpers.  The Go code works on UTF-8 bytes; every string constant it
tests against is ASCII, and the one byte-level operation (`isLetter(str[0])`)
cannot differ from its character-level reading because UTF-8 lead bytes of
multi-byte characters are always >= 0x80, outside the ASCII letter ranges.
So we model strings as their character lists.
-/

/-- The backquote character (avoiding a literal in source text). -/
def backquote : Char := Char.ofNat 96

/-- Decimal digit test on a character, as Go compares bytes against
the digits. -/
def isDigitCh (c : Char) : Bool :=
  decide (48 ≤ c.toNat) && decide (c.toNat ≤ 57)

/-- Digit or underscore: the characters Go's float reader consumes inside a
digit run (underscores are validated separately by `underscoreOK`). -/
def isDigitU (c : Char) : Bool :=
  isDigitCh c || decide (c = '_')

/-- Go `isLetter` from application.go: ASCII a-z or A-Z. -/
def isLetterCh (c : Char) : Bool :=
  (decide (97 ≤ c.toNat) && decide (c.toNat ≤ 122)) ||
    (decide (65 ≤ c.toNat) && decide (c.toNat ≤ 90))

/-- ASCII lower-casing, as Go's strconv applies to letters. -/
def lowerChar (c : Char) : Char :=
  if 65 ≤ c.toNat ∧ c.toNat ≤ 90 then Char.ofNat (c.toNat + 32) else c

/-- Boolean list-of-characters prefix test (first argument is the pattern). -/
def listHasPfx : List Char → List Char → Bool
  | [], _ => true
  | _ :: _, [] => false
  | p :: ps, c :: cs => decide (p = c) && listHasPfx ps cs

/-- Go `strings.Contains`: does `sub` occur as a contiguous substring? -/
def hasSubstr (sub : List Char) : List Char → Bool
  | [] => listHasPfx sub []
  | c :: t => listHasPfx sub (c :: t) || hasSubstr sub t

/-- Split off the longest run of characters satisfying `f` (Go's digit-run
scanning in strconv's readFloat). -/
def takeWhileU (f : Char → Bool) : List Char → List Char × List Char
  | [] => ([], [])
  | c :: t =>
    if f c = true then (c :: (takeWhileU f t).1, (takeWhileU f t).2)
    else ([], c :: t)

/-- Go `IsTraceMeasurement`: the string equals "TRC", contains "LOQ", or
begins with "<". -/
def IsTraceMeasurement (s : String) : Bool :=
  decide (s.data = "TRC".data) || hasSubstr "LOQ".data s.data ||
    listHasPfx "<".data s.data

/-- Go `IsEmptyMeasurement`: the string is "", ".", "-", or begins
with "--". -/
def IsEmptyMeasurement (s : String) : Bool :=
  decide (s.data = []) || decide (s.data = ".".data) ||
    decide (s.data = "-".data) || listHasPfx "--".data s.data

/-- Go `IsErrorMeasurement`: more than one '.', any of the characters
comma/backquote/slash/parentheses, a leading ASCII letter, or one of the
specific known-bad literals.  `List.countP` models `strings.Count` for the
single-character "." pattern. -/
def IsErrorMeasurement (s : String) : Bool :=
  if 1 < s.data.countP (fun c => decide (c = '.')) then true
  else if s.data.any (fun c => decide (c ∈ [',', backquote, '/', '(', ')'])) then true
  else if (match s.data with | [] => false | c :: _ => isLetterCh c) = true then true
  else if decide (s.data = "0<0.10".data) ||
      listHasPfx "terpinolene: 1.22".data s.data ||
      listHasPfx "a-Ocimene: 1.08".data s.data then true
  else false

/-- Go `strings.TrimPrefix`: drop `p` from the front when it is a prefix. -/
def goTrimPfx (s : String) (p : List Char) : String :=
  if listHasPfx p s.data = true then String.mk (s.data.drop p.length) else s

/-- Go `strings.TrimSuffix`: drop `p` from the end when it is a suffix
(tested via reversed prefix). -/
def goTrimSfx (s : String) (p : List Char) : String :=
  if listHasPfx p.reverse s.data.reverse = true then
    String.mk (s.data.take (s.data.length - p.length))
  else s

/-- The stripping pipeline of `Measure.FromString`: a single leading comma,
then a single leading '>', then a single trailing '%'. -/
def stripMeasure (s : String) : String :=
  goTrimSfx (goTrimPfx (goTrimPfx s ",".data) ">".data) "%".data

/-!
Model of Go's `strconv.ParseFloat(s, 64)` as used by `Measure.FromString`:
decimal and hexadecimal float syntax, the case-insensitive inf/infinity/nan
specials, the digit-separating-underscore rule, and the ErrRange behaviour at
the edges of the binary64 range.  Finite results are exact rationals (the
final binary64 rounding step, at most half an ULP, is not modelled).
-/

/-- Parse failure kinds of strconv: ErrSyntax and ErrRange. -/
inductive ParseErr where
  | malformed
  | outOfRange
deriving DecidableEq, Repr

/-- Split an optional leading sign; `true` means negative. -/
def splitSign (cs : List Char) : Bool × List Char :=
  match cs with
  | [] => (false, [])
  | c :: t =>
    if c = '-' then (true, t)
    else if c = '+' then (false, t)
    else (false, c :: t)

/-- Value of a big-endian decimal digit run, skipping underscores. -/
def digitsVal (cs : List Char) : ℕ :=
  cs.foldl (fun a c => if c = '_' then a else 10 * a + (c.toNat - 48)) 0

/-- Hexadecimal digit test. -/
def isHexCh (c : Char) : Bool :=
  isDigitCh c ||
    (decide (97 ≤ (lowerChar c).toNat) && decide ((lowerChar c).toNat ≤ 102))

/-- Hexadecimal digit or underscore. -/
def isHexU (c : Char) : Bool :=
  isHexCh c || decide (c = '_')

/-- Value of a big-endian hexadecimal digit run, skipping underscores. -/
def hexDigitsVal (cs : List Char) : ℕ :=
  cs.foldl
    (fun a c =>
      if c = '_' then a
      else if isDigitCh c = true then 16 * a + (c.toNat - 48)
      else 16 * a + ((lowerChar c).toNat - 87)) 0

/-- Fractional part scan: consume a '.' and the digit run after it. -/
def parseFracPart (f : Char → Bool) : List Char → List Char × List Char
  | [] => ([], [])
  | c :: t => if c = '.' then takeWhileU f t else ([], c :: t)

/-- Absolute value on ℚ, written so that it evaluates by reduction. -/
def absQ (v : ℚ) : ℚ := if v < 0 then -v else v

/-- Exponent scan for decimal syntax: nothing, or e/E, optional sign, and a
nonempty digit run reaching the end of the string. -/
def parseExpPart (mant : ℚ) : List Char → Except ParseErr ℚ
  | [] => .ok mant
  | c :: t =>
    if c = 'e' ∨ c = 'E' then
      let st := splitSign t
      let er := takeWhileU isDigitU st.2
      if er.1.countP (fun c => isDigitCh c) = 0 ∨ er.2 ≠ [] then .error .malformed
      else
        let e := digitsVal er.1
        .ok (if st.1 then mant / ((10 ^ e : ℕ) : ℚ) else mant * ((10 ^ e : ℕ) : ℚ))
    else .error .malformed

/-- Decimal mantissa and exponent: digits, optional '.' and digits (at least
one digit in the mantissa), optional exponent. -/
def parseDec (cs : List Char) : Except ParseErr ℚ :=
  let ipr := takeWhileU isDigitU cs
  let fr := parseFracPart isDigitU ipr.2
  let nInt := ipr.1.countP (fun c => isDigitCh c)
  let nFrac := fr.1.countP (fun c => isDigitCh c)
  if nInt + nFrac = 0 then .error .malformed
  else
    let mant : ℚ :=
      ((digitsVal ipr.1 * 10 ^ nFrac + digitsVal fr.1 : ℕ) : ℚ) / ((10 ^ nFrac : ℕ) : ℚ)
    parseExpPart mant fr.2

/-- Hexadecimal mantissa (after the 0x prefix) with its mandatory binary
p-exponent: value is mantissa times 2^exponent. -/
def parseHex (cs : List Char) : Except ParseErr ℚ :=
  let ipr := takeWhileU isHexU cs
  let fr := parseFracPart isHexU ipr.2
  let nInt := ipr.1.countP (fun c => isHexCh c)
  let nFrac := fr.1.countP (fun c => isHexCh c)
  if nInt + nFrac = 0 then .error .malformed
  else
    let mant : ℚ :=
      ((hexDigitsVal ipr.1 * 16 ^ nFrac + hexDigitsVal fr.1 : ℕ) : ℚ) / ((16 ^ nFrac : ℕ) : ℚ)
    match fr.2 with
    | [] => .error .malformed
    | c :: t =>
      if c = 'p' ∨ c = 'P' then
        let st := splitSign t
        let er := takeWhileU isDigitU st.2
        if er.1.countP (fun c => isDigitCh c) = 0 ∨ er.2 ≠ [] then .error .malformed
        else
          let e := digitsVal er.1
          .ok (if st.1 then mant / ((2 ^ e : ℕ) : ℚ) else mant * ((2 ^ e : ℕ) : ℚ))
      else .error .malformed

/-- One step of Go strconv's underscoreOK scan.  The `saw` character encodes
the last thing seen: a digit ('d'), a base prefix ('0'), an underscore ('_'),
the start ('^') or anything else ('!'). -/
def underscoreLoop (hex : Bool) : Char → List Char → Bool
  | saw, [] => decide (saw ≠ '_')
  | saw, c :: t =>
    if (isDigitCh c ||
        (hex && decide (97 ≤ (lowerChar c).toNat) && decide ((lowerChar c).toNat ≤ 102))) = true then
      underscoreLoop hex 'd' t
    else if c = '_' then
      if saw = 'd' ∨ saw = '0' then underscoreLoop hex '_' t else false
    else if saw = '_' then false
    else underscoreLoop hex '!' t

/-- Go strconv's `underscoreOK`: underscores may appear only between digits,
or between a base prefix and a digit. -/
def underscoreOK (cs : List Char) : Bool :=
  let body := (splitSign cs).2
  match body with
  | c0 :: c1 :: t =>
    if c0 = '0' ∧ (lowerChar c1 = 'b' ∨ lowerChar c1 = 'o' ∨ lowerChar c1 = 'x') then
      underscoreLoop (decide (lowerChar c1 = 'x')) '0' t
    else underscoreLoop false '^' body
  | _ => underscoreLoop false '^' body

/-- Case-insensitive ASCII equality with an (already lowercase) pattern. -/
def lowerEq (cs : List Char) (pat : List Char) : Bool :=
  decide (cs.map lowerChar = pat)

/-- Does the (sign-stripped) body start with a 0x / 0X hex prefix? -/
def isHexPfx : List Char → Bool
  | c0 :: c1 :: _ => decide (c0 = '0') && (decide (c1 = 'x') || decide (c1 = 'X'))
  | _ => false

/-- The smallest decimal magnitude that rounds up to binary64 infinity:
parse results at or beyond it fail with ErrRange. -/
def maxAbsF : ℚ := ((2 ^ 1024 - 2 ^ 970 : ℕ) : ℚ)

/-- Half the smallest positive subnormal: nonzero magnitudes at or below it
round to zero and fail with ErrRange. -/
def minPosF : ℚ := 1 / ((2 ^ 1075 : ℕ) : ℚ)

/-- Model of `strconv.ParseFloat(s, 64)`.  A sign is permitted only before
inf/infinity: strconv's special() falls through from the sign case to the
infinity case alone, so "+nan" and "-nan" are syntax errors; "nan" matches
only the whole unsigned string. -/
def parseFloat64 (s : String) : Except ParseErr GoFloat :=
  let cs := s.data
  let sr := splitSign cs
  let body := sr.2
  if lowerEq body "inf".data || lowerEq body "infinity".data then .ok (.inf sr.1)
  else if lowerEq cs "nan".data then .ok .nan
  else
    let res : Except ParseErr ℚ :=
      if isHexPfx body = true then parseHex (body.drop 2) else parseDec body
    match res with
    | .error e => .error e
    | .ok q =>
      let v : ℚ := if sr.1 then -q else q
      if (cs.any fun c => decide (c = '_')) = true ∧ underscoreOK cs = false then
        .error .malformed
      else if maxAbsF ≤ absQ v then .error .outOfRange
      else if v ≠ 0 ∧ absQ v ≤ minPosF then .error .outOfRange
      else .ok (.finite v)

/-!
Model of `fmt.Sprintf("%f", x)`: fixed-point with six fractional digits.
Go prints the correctly rounded 6-digit decimal of the binary64 value; exact
ties cannot occur for binary64 inputs, so the tie-breaking rule is
unobservable there.  On our exact rationals we round half to even, matching
strconv's round-to-nearest-even convention.
-/

/-- Little-endian decimal digits of `n`; the fuel argument only bounds the
recursion depth (one digit per step). -/
def digitsRevAux : ℕ → ℕ → List ℕ
  | 0, _ => []
  | _ + 1, 0 => []
  | fuel + 1, n => n % 10 :: digitsRevAux fuel (n / 10)

/-- Big-endian decimal digits of `n` (with `[0]` for zero). -/
def digitsOf (n : ℕ) : List ℕ :=
  if n = 0 then [0] else (digitsRevAux n n).reverse

/-- The character of a decimal digit. -/
def digitChar (d : ℕ) : Char := Char.ofNat (48 + d)

/-- Left-pad the digits of `m` with zeros to the six fractional places
of %f. -/
def padLeft6 (m : ℕ) : List ℕ :=
  List.replicate (6 - (digitsOf m).length) 0 ++ digitsOf m

/-- Value of a big-endian digit list (specification-side counterpart of
`digitsVal` on characters). -/
def valBE (l : List ℕ) : ℕ := l.foldl (fun a d => 10 * a + d) 0

/-- Round half to even on rationals. -/
def roundEven (x : ℚ) : ℤ :=
  if x - ⌊x⌋ < 1 / 2 then ⌊x⌋
  else if 1 / 2 < x - ⌊x⌋ then ⌊x⌋ + 1
  else if ⌊x⌋ % 2 = 0 then ⌊x⌋ else ⌊x⌋ + 1

/-- `%f` on a finite value: optional sign, integer digits, '.', and six
fractional digits of the rounded magnitude. -/
def fmtFixed6 (q : ℚ) : String :=
  let n : ℕ := (roundEven (absQ q * 1000000)).toNat
  String.mk ((if q < 0 then ['-'] else []) ++
    (digitsOf (n / 1000000)).map digitChar ++
    '.' :: (padLeft6 (n % 1000000)).map digitChar)

/-- `fmt.Sprintf("%f", ·)` over the embedded float domain. -/
def fmtFloat : GoFloat → String
  | .finite q => fmtFixed6 q
  | .nan => "NaN"
  | .inf true => "-Inf"
  | .inf false => "+Inf"

/-- Go `Measure.AsSQL`: "NULL" for Empty and Trace, "0" for Zero, otherwise
the %f rendering of the amount. -/
def Measure.AsSQL (m : Measure) : String :=
  if (m.IsEmpty || m.IsTrace) = true then "NULL"
  else if m.IsZero = true then "0"
  else fmtFloat m.amount

/-- Go `Measure.AsCSV`: "" for Empty and Trace, "0" for Zero, otherwise the
%f rendering of the amount. -/
def Measure.AsCSV (m : Measure) : String :=
  if (m.IsEmpty || m.IsTrace) = true then ""
  else if m.IsZero = true then "0"
  else fmtFloat m.amount

/-- Go `Measure.MarshalJSON` (it always returns a nil error, so the model
returns just the emitted bytes): null for Empty, 0 for Zero, the quoted
sentinel string for Trace, otherwise the %f rendering. -/
def Measure.MarshalJSON (m : Measure) : String :=
  if m.IsEmpty = true then "null"
  else if m.IsZero = true then "0"
  else if m.IsTrace = true then "\"<0.01\""
  else fmtFloat m.amount

/-- Go `Measure.FromString` in state-passing form: the returned measure is
the receiver's state after the call, the option is the returned error.  On
the parse-error path Go returns without writing the receiver, so the input
measure is returned unchanged there. -/
def Measure.FromString (m : Measure) (str : String) : Measure × Option ParseErr :=
  if IsEmptyMeasurement str = true then (⟨measureEmptySentinel⟩, none)
  else if IsErrorMeasurement str = true then (⟨measureEmptySentinel⟩, none)
  else if IsTraceMeasurement str = true then (⟨measureTraceSentinel⟩, none)
  else
    match parseFloat64 (stripMeasure str) with
    | .error e => (m, some e)
    | .ok v => (⟨measureSentinelize v⟩, none)

/-- Modelled from the spec: the repository's brand record type (brand.go is
not among the provided sources; only its caller processBrands is).  Per
spec section 4.3 the cleaning pass is told which fields are validity-checked
percentages, so a record is modelled as its list of designated
percentage-field Measurements. -/
structure Brand where
  fields : List Measure
deriving DecidableEq, Repr

/-- Modelled from the spec: `CleanBrands` keeps a record iff every designated
field's Measurement is percent-valid, dropping the others (spec section 4.3:
a linear filter preserving input order, never raising). -/
def CleanBrands (brands : List Brand) : List Brand :=
  brands.filter fun b => b.fields.all fun f => f.IsValidPercent

/-- Parse results compare decidably (used to evaluate the model on concrete
inputs). -/
instance : DecidableEq (Except ParseErr GoFloat)
  | .error a, .error b =>
    if h : a = b then .isTrue (congrArg Except.error h)
    else .isFalse fun he => h (Except.error.inj he)
  | .error _, .ok _ => .isFalse Except.noConfusion
  | .ok _, .error _ => .isFalse Except.noConfusion
  | .ok a, .ok b =>
    if h : a = b then .isTrue (congrArg Except.ok h)
    else .isFalse fun he => h (Except.ok.inj he)

/-- Equality against the Empty sentinel only holds for an exact finite
zero. -/
theorem goEq_zero_iff (v : GoFloat) : goEq v (.finite 0) = true ↔ v = .finite 0 := by
  rcases v with q | _ | b <;> simp [goEq]

/-- A finite amount produced by `measureSentinelize` is strictly positive:
zero became NaN and negatives became negative infinity. -/
theorem sentinelize_finite_pos (v : GoFloat) (q : ℚ)
    (h : measureSentinelize v = .finite q) : 0 < q := by
  unfold measureSentinelize at h
  split at h
  · exact absurd h (by simp [measureZeroSentinel])
  · rename_i hEq
    split at h
    · exact absurd h (by simp [measureTraceSentinel])
    · rename_i hLt
      subst h
      rw [goEq_zero_iff] at hEq
      have hq0 : q ≠ 0 := fun h0 => hEq (by rw [h0])
      have hnn : ¬(q < 0) := by simpa [goLt] using hLt
      rcases lt_trichotomy q 0 with h | h | h
      · exact absurd h hnn
      · exact absurd h hq0
      · exact h

/-- Claim C9: every Measure is in exactly one of the four states — the
predicates IsEmpty, IsZero, IsTrace are pairwise mutually exclusive (the
sentinel encodings 0.0, NaN and negative infinity never coincide), and a
measure satisfying none of them is in the Numeric state. -/
theorem measure_state_partition (m : Measure) :
    (¬(m.IsEmpty = true ∧ m.IsZero = true)) ∧
    (¬(m.IsEmpty = true ∧ m.IsTrace = true)) ∧
    (¬(m.IsZero = true ∧ m.IsTrace = true)) ∧
    ((m.IsEmpty = false ∧ m.IsZero = false ∧ m.IsTrace = false) ↔
      m.IsNumeric = true) := by
  obtain ⟨a⟩ := m
  rcases a with q | _ | b
  · by_cases hq : q = 0 <;>
      simp [Measure.IsEmpty, Measure.IsZero, Measure.IsTrace, Measure.IsNumeric,
        goEq, measureEmptySentinel, hq]
  · simp [Measure.IsEmpty, Measure.IsZero, Measure.IsTrace, Measure.IsNumeric,
      goEq, measureEmptySentinel]
  · cases b <;>
      simp [Measure.IsEmpty, Measure.IsZero, Measure.IsTrace, Measure.IsNumeric,
        goEq, measureEmptySentinel]

/-- Witness for the partition claim at the Zero-sentinel measure. -/
theorem measure_state_partition_witness :
    (¬((⟨GoFloat.nan⟩ : Measure).IsEmpty = true ∧ (⟨GoFloat.nan⟩ : Measure).IsZero = true)) ∧
    (¬((⟨GoFloat.nan⟩ : Measure).IsEmpty = true ∧ (⟨GoFloat.nan⟩ : Measure).IsTrace = true)) ∧
    (¬((⟨GoFloat.nan⟩ : Measure).IsZero = true ∧ (⟨GoFloat.nan⟩ : Measure).IsTrace = true)) ∧
    (((⟨GoFloat.nan⟩ : Measure).IsEmpty = false ∧ (⟨GoFloat.nan⟩ : Measure).IsZero = false ∧
        (⟨GoFloat.nan⟩ : Measure).IsTrace = false) ↔ (⟨GoFloat.nan⟩ : Measure).IsNumeric = true) :=
  measure_state_partition ⟨GoFloat.nan⟩

/-- Claim C10: when FromString returns an error, the receiver is left
unchanged (the Go method returns before writing the amount field). -/
theorem fromString_error_atomic (m : Measure) (s : String) (e : ParseErr)
    (h : (m.FromString s).2 = some e) : (m.FromString s).1 = m := by
  cases hE : IsEmptyMeasurement s
  case true => simp [Measure.FromString, hE] at h
  case false =>
  cases hR : IsErrorMeasurement s
  case true => simp [Measure.FromString, hE, hR] at h
  case false =>
  cases hT : IsTraceMeasurement s
  case true => simp [Measure.FromString, hE, hR, hT] at h
  case false =>
  cases hP : parseFloat64 (stripMeasure s) with
  | error e0 => simp [Measure.FromString, hE, hR, hT, hP]
  | ok v => simp [Measure.FromString, hE, hR, hT, hP] at h

/-- Witness for the error-atomicity claim: parsing "1x" fails and leaves the
receiver holding 5. -/
theorem fromString_error_atomic_witness :
    ((⟨GoFloat.finite 5⟩ : Measure).FromString "1x").1 = ⟨GoFloat.finite 5⟩ :=
  fromString_error_atomic ⟨GoFloat.finite 5⟩ "1x" ParseErr.malformed (by decide)

/-- Claim C5: Empty and Trace serialize to absence in the tabular (AsCSV)
and relational (AsSQL) formats, but are distinguishable in the structured
format (MarshalJSON), while Zero serializes to "0" in all three. -/
theorem serialization_asymmetry (m : Measure) :
    (m.IsEmpty = true → m.AsCSV = "" ∧ m.AsSQL = "NULL" ∧ m.MarshalJSON = "null") ∧
    (m.IsTrace = true → m.AsCSV = "" ∧ m.AsSQL = "NULL" ∧ m.MarshalJSON = "\"<0.01\"") ∧
    (m.IsZero = true → m.AsCSV = "0" ∧ m.AsSQL = "0" ∧ m.MarshalJSON = "0") ∧
    NewEmptyMeasure.MarshalJSON ≠ NewTraceMeasure.MarshalJSON := by
  obtain ⟨a⟩ := m
  refine ⟨?_, ?_, ?_, by decide⟩ <;> intro h <;> rcases a with q | _ | b
  · have hq : q = 0 := by
      simpa [Measure.IsEmpty, goEq, measureEmptySentinel] using h
    subst hq
    exact ⟨by decide, by decide, by decide⟩
  · exact absurd h (by decide)
  · exact absurd h (by simp [Measure.IsEmpty, goEq, measureEmptySentinel])
  · exact absurd h (by simp [Measure.IsTrace])
  · exact absurd h (by decide)
  · cases b
    · exact absurd h (by decide)
    · exact ⟨by decide, by decide, by decide⟩
  · exact absurd h (by simp [Measure.IsZero])
  · exact ⟨by decide, by decide, by decide⟩
  · exact absurd h (by simp [Measure.IsZero])

/-- Witness for the serialization claim at the three sentinel measures. -/
theorem serialization_asymmetry_witness :
    NewEmptyMeasure.AsCSV = "" ∧ NewEmptyMeasure.AsSQL = "NULL" ∧
      NewEmptyMeasure.MarshalJSON = "null" ∧
    NewTraceMeasure.AsCSV = "" ∧ NewTraceMeasure.AsSQL = "NULL" ∧
      NewTraceMeasure.MarshalJSON = "\"<0.01\"" ∧
    (⟨GoFloat.nan⟩ : Measure).AsCSV = "0" ∧ (⟨GoFloat.nan⟩ : Measure).AsSQL = "0" ∧
      (⟨GoFloat.nan⟩ : Measure).MarshalJSON = "0" := by
  obtain ⟨e1, e2, e3⟩ := (serialization_asymmetry NewEmptyMeasure).1 (by decide)
  obtain ⟨t1, t2, t3⟩ := (serialization_asymmetry NewTraceMeasure).2.1 (by decide)
  obtain ⟨z1, z2, z3⟩ := (serialization_asymmetry ⟨GoFloat.nan⟩).2.2.1 (by decide)
  exact ⟨e1, e2, e3, t1, t2, t3, z1, z2, z3⟩

/-- Claim C3: for a Measure produced by NewMeasure or by a successful
FromString, IsValidPercent holds iff the measure is Empty, Zero, Trace, or
a Numeric value in [0, 100]; and a negative finite amount is unreachable
from these constructors (negative inputs are coerced to Trace). -/
theorem percent_validity (a : GoFloat) (m m' : Measure) (s : String)
    (h : m' = NewMeasure a ∨ m.FromString s = (m', none)) :
    ((m'.IsValidPercent = true) ↔
      (m'.IsEmpty = true ∨ m'.IsZero = true ∨ m'.IsTrace = true ∨
        ∃ q : ℚ, m'.amount = .finite q ∧ 0 ≤ q ∧ q ≤ 100)) ∧
    (¬ ∃ q : ℚ, q < 0 ∧ m'.amount = .finite q) := by
  constructor
  · clear h
    obtain ⟨a'⟩ := m'
    rcases a' with q | _ | b
    · by_cases hq : q = 0 <;>
        simp [Measure.IsValidPercent, Measure.IsEmpty, Measure.IsZero,
          Measure.IsTrace, goEq, goLe, measureEmptySentinel, hq]
    · simp [Measure.IsValidPercent, Measure.IsZero]
    · cases b <;>
        simp [Measure.IsValidPercent, Measure.IsEmpty, Measure.IsZero,
          Measure.IsTrace, goEq, goLe, measureEmptySentinel]
  · rintro ⟨q, hq, hfin⟩
    rcases h with rfl | h
    · have : measureSentinelize a = .finite q := by
        simpa [NewMeasure] using hfin
      exact absurd (sentinelize_finite_pos a q this) (by linarith)
    · cases hE : IsEmptyMeasurement s
      case true =>
        rw [Measure.FromString, if_pos hE] at h
        have h1 : m' = ⟨measureEmptySentinel⟩ := (congrArg Prod.fst h).symm
        rw [h1] at hfin
        simp [measureEmptySentinel] at hfin
        linarith
      case false =>
      cases hR : IsErrorMeasurement s
      case true =>
        rw [Measure.FromString, if_neg (by simp [hE]), if_pos hR] at h
        have h1 : m' = ⟨measureEmptySentinel⟩ := (congrArg Prod.fst h).symm
        rw [h1] at hfin
        simp [measureEmptySentinel] at hfin
        linarith
      case false =>
      cases hT : IsTraceMeasurement s
      case true =>
        rw [Measure.FromString, if_neg (by simp [hE]), if_neg (by simp [hR]),
          if_pos hT] at h
        have h1 : m' = ⟨measureTraceSentinel⟩ := (congrArg Prod.fst h).symm
        rw [h1] at hfin
        simp [measureTraceSentinel] at hfin
      case false =>
      rw [Measure.FromString, if_neg (by simp [hE]), if_neg (by simp [hR]),
        if_neg (by simp [hT])] at h
      cases hP : parseFloat64 (stripMeasure s) with
      | error e0 => rw [hP] at h; simp at h
      | ok v =>
        rw [hP] at h
        have h1 : m' = ⟨measureSentinelize v⟩ := (congrArg Prod.fst h).symm
        rw [h1] at hfin
        exact absurd (sentinelize_finite_pos v q hfin) (by linarith)

/-- Witness for the percent-validity claim at NewMeasure(50). -/
theorem percent_validity_witness :
    (((NewMeasure (.finite 50)).IsValidPercent = true) ↔
      ((NewMeasure (.finite 50)).IsEmpty = true ∨ (NewMeasure (.finite 50)).IsZero = true ∨
        (NewMeasure (.finite 50)).IsTrace = true ∨
        ∃ q : ℚ, (NewMeasure (.finite 50)).amount = .finite q ∧ 0 ≤ q ∧ q ≤ 100)) ∧
    (¬ ∃ q : ℚ, q < 0 ∧ (NewMeasure (.finite 50)).amount = .finite q) :=
  percent_validity (.finite 50) ⟨.finite 0⟩ (NewMeasure (.finite 50)) "" (Or.inl rfl)

/-- Claim C4 (spec-modelled): the cleaning pass keeps a record iff every
designated percentage field is percent-valid; it is a pure order-preserving
filter, and kept-count plus dropped-count equals the input count, so the
caller can report the delta. -/
theorem cleanBrands_keeps_iff_valid (bs : List Brand) (b : Brand) :
    (b ∈ CleanBrands bs ↔ b ∈ bs ∧ (b.fields.all fun f => f.IsValidPercent) = true) ∧
    ((CleanBrands bs).length +
      bs.countP (fun r => !(r.fields.all fun f => f.IsValidPercent)) = bs.length) ∧
    (CleanBrands bs).Sublist bs := by
  refine ⟨by simp [CleanBrands], ?_, List.filter_sublist _⟩
  induction bs with
  | nil => rfl
  | cons hd tl ih =>
    cases hv : (hd.fields.all fun f => f.IsValidPercent) <;>
      simp only [CleanBrands, List.filter_cons, List.countP_cons, hv] at * <;>
      simp [hv] <;> omega

/-- Witness for the cleaning-pass claim: one valid and one invalid record. -/
theorem cleanBrands_keeps_iff_valid_witness :
    (Brand.mk [NewEmptyMeasure] ∈
        CleanBrands [Brand.mk [NewEmptyMeasure], Brand.mk [⟨GoFloat.finite 150⟩]] ↔
      Brand.mk [NewEmptyMeasure] ∈
          [Brand.mk [NewEmptyMeasure], Brand.mk [⟨GoFloat.finite 150⟩]] ∧
        ((Brand.mk [NewEmptyMeasure]).fields.all fun f => f.IsValidPercent) = true) ∧
    ((CleanBrands [Brand.mk [NewEmptyMeasure], Brand.mk [⟨GoFloat.finite 150⟩]]).length +
      ([Brand.mk [NewEmptyMeasure], Brand.mk [⟨GoFloat.finite 150⟩]].countP
        (fun r => !(r.fields.all fun f => f.IsValidPercent))) = 2) ∧
    (CleanBrands [Brand.mk [NewEmptyMeasure], Brand.mk [⟨GoFloat.finite 150⟩]]).Sublist
      [Brand.mk [NewEmptyMeasure], Brand.mk [⟨GoFloat.finite 150⟩]] :=
  cleanBrands_keeps_iff_valid
    [Brand.mk [NewEmptyMeasure], Brand.mk [⟨GoFloat.finite 150⟩]]
    (Brand.mk [NewEmptyMeasure])

/-- Claim C1 evaluation: IsTraceMeasurement accepts "TRC" (as its own doc
comment promises), but FromString routes "TRC" through the leading-letter
error filter first, landing in the Empty state; the other three trace
strings do reach the Trace state. -/
theorem trc_shadowed_by_error_filter :
    IsTraceMeasurement "TRC" = true ∧ IsErrorMeasurement "TRC" = true ∧
    (∀ m : Measure,
      m.FromString "TRC" = (⟨measureEmptySentinel⟩, none) ∧
      (m.FromString "TRC").1.IsEmpty = true ∧
      (m.FromString "TRC").1.IsTrace = false ∧
      (m.FromString "<LOQ").1.IsTrace = true ∧
      (m.FromString "<0.1").1.IsTrace = true ∧
      (m.FromString "0.5LOQ").1.IsTrace = true) := by
  refine ⟨by decide, by decide, fun m => ?_⟩
  have h1 : m.FromString "TRC" = (⟨measureEmptySentinel⟩, none) := by
    rw [Measure.FromString, if_neg (by decide), if_pos (by decide)]
  have h2 : m.FromString "<LOQ" = (⟨measureTraceSentinel⟩, none) := by
    rw [Measure.FromString, if_neg (by decide), if_neg (by decide), if_pos (by decide)]
  have h3 : m.FromString "<0.1" = (⟨measureTraceSentinel⟩, none) := by
    rw [Measure.FromString, if_neg (by decide), if_neg (by decide), if_pos (by decide)]
  have h4 : m.FromString "0.5LOQ" = (⟨measureTraceSentinel⟩, none) := by
    rw [Measure.FromString, if_neg (by decide), if_neg (by decide), if_pos (by decide)]
  exact ⟨h1, by rw [h1]; decide, by rw [h1]; decide, by rw [h2]; decide,
    by rw [h3]; decide, by rw [h4]; decide⟩

/-- Counterexample for claim C2 as stated: ",5" is error-classified (it
contains a comma), so FromString leaves the Empty state without error and
never reaches the comma-stripping that would produce Numeric(5). -/
theorem comma_string_coerced_to_empty :
    (Measure.mk (.finite 0)).FromString ",5" = (⟨measureEmptySentinel⟩, none) ∧
    ((Measure.mk (.finite 0)).FromString ",5").1.IsEmpty = true ∧
    ¬(((Measure.mk (.finite 0)).FromString ",5").1.amount = .finite 5) := by
  with_unfolding_all decide

/-- Claim C2 (amended): the numeric mappings for "45.3", "45.3%" and ">100"
hold, while ",5" yields Empty without error (comma-containing strings are
error-classified before any comma stripping applies). -/
theorem fromString_numeric_mappings (m : Measure) :
    m.FromString "45.3" = (⟨.finite (453 / 10)⟩, none) ∧
    m.FromString "45.3%" = (⟨.finite (453 / 10)⟩, none) ∧
    m.FromString ">100" = (⟨.finite 100⟩, none) ∧
    m.FromString ",5" = (⟨measureEmptySentinel⟩, none) := by
  refine ⟨?_, ?_, ?_, ?_⟩
  · rw [Measure.FromString, if_neg (by decide), if_neg (by decide), if_neg (by decide),
      show parseFloat64 (stripMeasure "45.3") = .ok (.finite (453 / 10)) from
        by with_unfolding_all decide]
    with_unfolding_all rfl
  · rw [Measure.FromString, if_neg (by decide), if_neg (by decide), if_neg (by decide),
      show parseFloat64 (stripMeasure "45.3%") = .ok (.finite (453 / 10)) from
        by with_unfolding_all decide]
    with_unfolding_all rfl
  · rw [Measure.FromString, if_neg (by decide), if_neg (by decide), if_neg (by decide),
      show parseFloat64 (stripMeasure ">100") = .ok (.finite 100) from
        by with_unfolding_all decide]
    with_unfolding_all rfl
  · rw [Measure.FromString, if_neg (by decide), if_pos (by decide)]

/-- Claim C7: the four empty-classified strings and the four error-classified
strings all put the measure in the Empty state with no error returned. -/
theorem fromString_empty_coercions (m : Measure) :
    m.FromString "" = (⟨measureEmptySentinel⟩, none) ∧
    m.FromString "." = (⟨measureEmptySentinel⟩, none) ∧
    m.FromString "-" = (⟨measureEmptySentinel⟩, none) ∧
    m.FromString "--x" = (⟨measureEmptySentinel⟩, none) ∧
    m.FromString "1.1." = (⟨measureEmptySentinel⟩, none) ∧
    m.FromString "1,2" = (⟨measureEmptySentinel⟩, none) ∧
    m.FromString "a1.0" = (⟨measureEmptySentinel⟩, none) ∧
    m.FromString "0<0.10" = (⟨measureEmptySentinel⟩, none) ∧
    (⟨measureEmptySentinel⟩ : Measure).IsEmpty = true := by
  refine ⟨?_, ?_, ?_, ?_, ?_, ?_, ?_, ?_, by decide⟩
  · rw [Measure.FromString, if_pos (by decide)]
  · rw [Measure.FromString, if_pos (by decide)]
  · rw [Measure.FromString, if_pos (by decide)]
  · rw [Measure.FromString, if_pos (by decide)]
  · rw [Measure.FromString, if_neg (by decide), if_pos (by decide)]
  · rw [Measure.FromString, if_neg (by decide), if_pos (by decide)]
  · rw [Measure.FromString, if_neg (by decide), if_pos (by decide)]
  · rw [Measure.FromString, if_neg (by decide), if_pos (by decide)]

/-- Evaluating the character-list view of a constructed string. -/
theorem stringData_mk (l : List Char) : (String.mk l).data = l := rfl

/-- Appending one digit multiplies the value by ten and adds it. -/
theorem valBE_append_digit (l : List ℕ) (d : ℕ) :
    valBE (l ++ [d]) = 10 * valBE l + d := by
  simp [valBE, List.foldl_append]

/-- Leading zeros do not change the value of a digit list. -/
theorem valBE_replicate_zero (k : ℕ) (l : List ℕ) :
    valBE (List.replicate k 0 ++ l) = valBE l := by
  induction k with
  | zero => simp
  | succ k ih => simpa [valBE, List.replicate_succ] using ih

/-- The little-endian digit expansion evaluates back to its number. -/
theorem digitsRevAux_val (fuel : ℕ) : ∀ n : ℕ, n ≤ fuel →
    valBE (digitsRevAux fuel n).reverse = n := by
  induction fuel with
  | zero =>
    intro n hn
    interval_cases n
    rfl
  | succ fuel ih =>
    intro n hn
    match n with
    | 0 => rfl
    | k + 1 =>
      rw [show digitsRevAux (fuel + 1) (k + 1) =
          (k + 1) % 10 :: digitsRevAux fuel ((k + 1) / 10) from rfl]
      rw [List.reverse_cons, valBE_append_digit,
        ih ((k + 1) / 10) (by omega)]
      omega

/-- Every entry of the digit expansion is a decimal digit. -/
theorem digitsRevAux_lt (fuel : ℕ) : ∀ (n : ℕ), ∀ d ∈ digitsRevAux fuel n, d < 10 := by
  induction fuel with
  | zero => intro n d hd; simp [digitsRevAux] at hd
  | succ fuel ih =>
    intro n d hd
    match n with
    | 0 => simp [digitsRevAux] at hd
    | k + 1 =>
      rw [show digitsRevAux (fuel + 1) (k + 1) =
          (k + 1) % 10 :: digitsRevAux fuel ((k + 1) / 10) from rfl] at hd
      rcases List.mem_cons.mp hd with rfl | hmem
      · omega
      · exact ih _ d hmem

/-- Numbers below a power of ten expand to at most that many digits. -/
theorem digitsRevAux_length (fuel : ℕ) : ∀ n k : ℕ, n < 10 ^ k →
    (digitsRevAux fuel n).length ≤ k := by
  induction fuel with
  | zero => intro n k _; simp [digitsRevAux]
  | succ fuel ih =>
    intro n k hk
    match n with
    | 0 => simp [digitsRevAux]
    | k' + 1 =>
      rw [show digitsRevAux (fuel + 1) (k' + 1) =
          (k' + 1) % 10 :: digitsRevAux fuel ((k' + 1) / 10) from rfl]
      have hkpos : k ≠ 0 := by
        intro h0
        rw [h0] at hk
        omega
      obtain ⟨k1, rfl⟩ : ∃ k1, k = k1 + 1 := ⟨k - 1, by omega⟩
      have hdiv : (k' + 1) / 10 < 10 ^ k1 := by
        rw [Nat.div_lt_iff_lt_mul (by omega)]
        calc k' + 1 < 10 ^ (k1 + 1) := hk
        _ = 10 ^ k1 * 10 := by ring
      simpa using ih ((k' + 1) / 10) k1 hdiv

/-- The big-endian digit list is never empty. -/
theorem digitsOf_ne_nil (n : ℕ) : digitsOf n ≠ [] := by
  unfold digitsOf
  split
  · simp
  · rename_i hn
    match n, hn with
    | k + 1, _ =>
      rw [show digitsRevAux (k + 1) (k + 1) =
          (k + 1) % 10 :: digitsRevAux k ((k + 1) / 10) from rfl]
      simp

/-- Every entry of the big-endian digit list is a decimal digit. -/
theorem digitsOf_lt (n : ℕ) : ∀ d ∈ digitsOf n, d < 10 := by
  intro d hd
  unfold digitsOf at hd
  split at hd
  · simp at hd
    omega
  · exact digitsRevAux_lt n n d (List.mem_reverse.mp hd)

/-- The big-endian digit list evaluates back to its number. -/
theorem digitsOf_val (n : ℕ) : valBE (digitsOf n) = n := by
  unfold digitsOf
  split
  · rename_i h
    subst h
    rfl
  · exact digitsRevAux_val n n le_rfl

/-- Length bound for the big-endian digit list. -/
theorem digitsOf_length_le (n k : ℕ) (h1 : n < 10 ^ k) (h2 : 1 ≤ k) :
    (digitsOf n).length ≤ k := by
  unfold digitsOf
  split
  · simpa using h2
  · simpa using digitsRevAux_length n n k h1

/-- The padded fractional digit list has exactly six entries. -/
theorem padLeft6_length (m : ℕ) (h : m < 1000000) : (padLeft6 m).length = 6 := by
  have hlen : (digitsOf m).length ≤ 6 :=
    digitsOf_length_le m 6 (by norm_num at h ⊢; omega) (by omega)
  simp [padLeft6]
  omega

/-- Padding with zeros preserves the value. -/
theorem padLeft6_val (m : ℕ) : valBE (padLeft6 m) = m := by
  rw [padLeft6, valBE_replicate_zero, digitsOf_val]

/-- Every entry of the padded list is a decimal digit. -/
theorem padLeft6_lt (m : ℕ) : ∀ d ∈ padLeft6 m, d < 10 := by
  intro d hd
  rcases List.mem_append.mp hd with hz | hm
  · have := List.eq_of_mem_replicate hz
    omega
  · exact digitsOf_lt m d hm

/-- The padded list is nonempty. -/
theorem padLeft6_ne_nil (m : ℕ) : padLeft6 m ≠ [] := by
  intro h
  have := congrArg List.length h
  simp [padLeft6] at this
  exact digitsOf_ne_nil m this.2

/-- Code point of a digit character. -/
theorem digitChar_toNat (d : ℕ) (h : d < 10) : (digitChar d).toNat = 48 + d := by
  interval_cases d <;> rfl

/-- Digit characters pass the digit test. -/
theorem isDigitCh_digitChar (d : ℕ) (h : d < 10) : isDigitCh (digitChar d) = true := by
  interval_cases d <;> decide

/-- A digit character is not an underscore. -/
theorem digitChar_ne_underscore (d : ℕ) (h : d < 10) : ¬(digitChar d = '_') := by
  interval_cases d <;> decide

/-- Bounds extracted from the digit test. -/
theorem isDigitCh_toNat (c : Char) (h : isDigitCh c = true) :
    48 ≤ c.toNat ∧ c.toNat ≤ 57 := by
  simpa [isDigitCh] using h

/-- A digit character differs from any character outside the digit code
range. -/
theorem digit_ne (c d : Char) (h : isDigitCh c = true)
    (hd : d.toNat < 48 ∨ 57 < d.toNat) : ¬(c = d) := by
  intro he
  have h1 := isDigitCh_toNat c h
  rw [he] at h1
  rcases hd with hd | hd <;> omega

/-- Digits survive ASCII lower-casing unchanged. -/
theorem lowerChar_digit (c : Char) (h : isDigitCh c = true) : lowerChar c = c := by
  have := isDigitCh_toNat c h
  rw [lowerChar, if_neg]
  omega

/-- A digit character is not an ASCII letter. -/
theorem isLetterCh_digit (c : Char) (h : isDigitCh c = true) : isLetterCh c = false := by
  have := isDigitCh_toNat c h
  simp [isLetterCh]
  omega

/-- Scanning a run of accepted characters stops exactly at the boundary. -/
theorem takeWhileU_all_append (f : Char → Bool) (l r : List Char)
    (hl : ∀ c ∈ l, f c = true)
    (hr : ∀ c t, r = c :: t → f c = false) :
    takeWhileU f (l ++ r) = (l, r) := by
  induction l with
  | nil =>
    match r, hr with
    | [], _ => rfl
    | c :: t, hr => simp [takeWhileU, hr c t rfl]
  | cons a l ih =>
    have ha : f a = true := hl a (by simp)
    have ih' := ih fun c hc => hl c (by simp [hc])
    simp [takeWhileU, ha, ih']

/-- A pattern whose head differs from the head of the string is not a
prefix. -/
theorem listHasPfx_head_false (x c : Char) (ps t : List Char) (h : ¬(x = c)) :
    listHasPfx (x :: ps) (c :: t) = false := by
  simp [listHasPfx, h]

/-- A string with no 'L' cannot contain "LOQ". -/
theorem hasSubstr_LOQ_false (l : List Char) (h : ∀ c ∈ l, ¬(c = 'L')) :
    hasSubstr "LOQ".data l = false := by
  induction l with
  | nil => rfl
  | cons c t ih =>
    have hc : ¬('L' = c) := fun he => h c (by simp) he.symm
    rw [show hasSubstr "LOQ".data (c :: t) =
        (listHasPfx "LOQ".data (c :: t) || hasSubstr "LOQ".data t) from rfl]
    rw [show "LOQ".data = 'L' :: "OQ".data from rfl, listHasPfx_head_false _ _ _ _ hc,
      ih fun c hc => h c (by simp [hc])]
    rfl

/-- Digit runs contain no dot. -/
theorem countP_dot_digits (l : List Char) (h : ∀ c ∈ l, isDigitCh c = true) :
    l.countP (fun c => decide (c = '.')) = 0 := by
  rw [List.countP_eq_zero]
  intro c hc
  simpa using digit_ne c '.' (h c hc) (by decide)

/-- Character-level digit evaluation agrees with the numeric digit value. -/
theorem digitsVal_map_digitChar (ds : List ℕ) (h : ∀ d ∈ ds, d < 10) :
    digitsVal (ds.map digitChar) = valBE ds := by
  suffices haux : ∀ (ds : List ℕ) (a0 : ℕ), (∀ d ∈ ds, d < 10) →
      List.foldl (fun a c => if c = '_' then a else 10 * a + (c.toNat - 48)) a0
        (ds.map digitChar) = List.foldl (fun a d => 10 * a + d) a0 ds by
    exact haux ds 0 h
  intro ds
  induction ds with
  | nil => intro a0 _; rfl
  | cons d t ih =>
    intro a0 hall
    have hd : d < 10 := hall d (by simp)
    simp only [List.map_cons, List.foldl_cons,
      if_neg (digitChar_ne_underscore d hd), digitChar_toNat d hd]
    rw [show 48 + d - 48 = d from by omega]
    exact ih (10 * a0 + d) fun x hx => hall x (by simp [hx])

/-- A digits-dot-digits string fails the empty-measurement test. -/
theorem isEmptyM_digits_dot (a b : List Char) (ha : a ≠ [])
    (hA : ∀ c ∈ a, isDigitCh c = true) :
    IsEmptyMeasurement (String.mk (a ++ '.' :: b)) = false := by
  obtain ⟨c0, a', rfl⟩ : ∃ c0 a', a = c0 :: a' := by
    cases a with
    | nil => exact absurd rfl ha
    | cons x t => exact ⟨x, t, rfl⟩
  simp only [List.cons_append]
  have hc0 : isDigitCh c0 = true := hA c0 (by simp)
  have h1 : ¬(c0 = '.') := digit_ne _ _ hc0 (by decide)
  have h2 : ¬(c0 = '-') := digit_ne _ _ hc0 (by decide)
  have h2' : ¬('-' = c0) := fun he => h2 he.symm
  rw [IsEmptyMeasurement, stringData_mk]
  rw [show "--".data = '-' :: ['-'] from rfl, listHasPfx_head_false _ _ _ _ h2']
  simp [show ".".data = ['.'] from rfl, show "-".data = ['-'] from rfl, h1, h2]

/-- Every character of a digits-dot-digits string is a digit or the dot. -/
theorem mem_digits_dot (c0 : Char) (a' b : List Char)
    (hc0 : isDigitCh c0 = true)
    (hA : ∀ c ∈ a', isDigitCh c = true) (hB : ∀ c ∈ b, isDigitCh c = true) :
    ∀ c ∈ c0 :: (a' ++ '.' :: b), isDigitCh c = true ∨ c = '.' := by
  intro c hc
  rcases List.mem_cons.mp hc with rfl | hc
  · exact Or.inl hc0
  · rcases List.mem_append.mp hc with hca | hcb
    · exact Or.inl (hA c hca)
    · rcases List.mem_cons.mp hcb with rfl | hcb
      · exact Or.inr rfl
      · exact Or.inl (hB c hcb)

/-- A digits-dot-digits string fails the error-measurement test. -/
theorem isErrorM_digits_dot (a b : List Char) (ha : a ≠ [])
    (hA : ∀ c ∈ a, isDigitCh c = true) (hB : ∀ c ∈ b, isDigitCh c = true) :
    IsErrorMeasurement (String.mk (a ++ '.' :: b)) = false := by
  obtain ⟨c0, a', rfl⟩ : ∃ c0 a', a = c0 :: a' := by
    cases a with
    | nil => exact absurd rfl ha
    | cons x t => exact ⟨x, t, rfl⟩
  simp only [List.cons_append]
  have hc0 : isDigitCh c0 = true := hA c0 (by simp)
  have hA' : ∀ c ∈ a', isDigitCh c = true := fun c hc => hA c (by simp [hc])
  have hmem := mem_digits_dot c0 a' b hc0 hA' hB
  have hdots : (c0 :: (a' ++ '.' :: b)).countP (fun c => decide (c = '.')) = 1 := by
    rw [List.countP_cons, List.countP_append, List.countP_cons,
      countP_dot_digits a' hA', countP_dot_digits b hB]
    simp [digit_ne _ _ hc0 (show ('.').toNat < 48 ∨ 57 < ('.').toNat by decide)]
  have hany : (c0 :: (a' ++ '.' :: b)).any
      (fun c => decide (c ∈ [',', backquote, '/', '(', ')'])) = false := by
    rw [List.any_eq_false]
    intro c hc
    rcases hmem c hc with hd | rfl
    · have hb := isDigitCh_toNat c hd
      simp only [List.mem_cons, decide_eq_true_eq, List.not_mem_nil, or_false]
      push_neg
      refine ⟨?_, ?_, ?_, ?_, ?_⟩ <;>
        exact digit_ne _ _ hd (by decide)
    · decide
  have hlit1 : ¬((c0 :: (a' ++ '.' :: b)) = "0<0.10".data) := by
    intro heq
    rw [show "0<0.10".data = '0' :: '<' :: ['0', '.', '1', '0'] from rfl] at heq
    obtain ⟨h1, h2⟩ := List.cons.injEq .. ▸ heq
    match a', h2 with
    | [], h2 =>
      simp at h2
    | c1 :: a'', h2 =>
      have hc1 : isDigitCh c1 = true := hA' c1 (by simp)
      simp at h2
      exact digit_ne _ '<' hc1 (by decide) h2.1
  have hlit2 : listHasPfx "terpinolene: 1.22".data (c0 :: (a' ++ '.' :: b)) = false := by
    rw [show "terpinolene: 1.22".data = 't' :: "erpinolene: 1.22".data from rfl]
    exact listHasPfx_head_false _ _ _ _
      (fun he => digit_ne _ 't' hc0 (by decide) he.symm)
  have hlit3 : listHasPfx "a-Ocimene: 1.08".data (c0 :: (a' ++ '.' :: b)) = false := by
    rw [show "a-Ocimene: 1.08".data = 'a' :: "-Ocimene: 1.08".data from rfl]
    exact listHasPfx_head_false _ _ _ _
      (fun he => digit_ne _ 'a' hc0 (by decide) he.symm)
  rw [IsErrorMeasurement, stringData_mk,
    if_neg (show ¬(1 < _) from by rw [hdots]; omega),
    if_neg (show ¬(_ = true) from by rw [hany]; simp),
    if_neg (show ¬(_ = true) from by simp [isLetterCh_digit c0 hc0]),
    if_neg (show ¬(_ = true) from by simp [hlit1, hlit2, hlit3])]

/-- A digits-dot-digits string fails the trace-measurement test. -/
theorem isTraceM_digits_dot (a b : List Char) (ha : a ≠ [])
    (hA : ∀ c ∈ a, isDigitCh c = true) (hB : ∀ c ∈ b, isDigitCh c = true) :
    IsTraceMeasurement (String.mk (a ++ '.' :: b)) = false := by
  obtain ⟨c0, a', rfl⟩ : ∃ c0 a', a = c0 :: a' := by
    cases a with
    | nil => exact absurd rfl ha
    | cons x t => exact ⟨x, t, rfl⟩
  simp only [List.cons_append]
  have hc0 : isDigitCh c0 = true := hA c0 (by simp)
  have hA' : ∀ c ∈ a', isDigitCh c = true := fun c hc => hA c (by simp [hc])
  have hmem := mem_digits_dot c0 a' b hc0 hA' hB
  have h1 : ¬((c0 :: (a' ++ '.' :: b)) = "TRC".data) := by
    intro heq
    rw [show "TRC".data = 'T' :: ['R', 'C'] from rfl] at heq
    exact digit_ne _ 'T' hc0 (by decide) (List.head_eq_of_cons_eq heq)
  have h2 : hasSubstr "LOQ".data (c0 :: (a' ++ '.' :: b)) = false := by
    refine hasSubstr_LOQ_false _ fun c hc => ?_
    rcases hmem c hc with hd | rfl
    · exact digit_ne _ 'L' hd (by decide)
    · decide
  have h3 : listHasPfx "<".data (c0 :: (a' ++ '.' :: b)) = false := by
    rw [show "<".data = '<' :: [] from rfl]
    exact listHasPfx_head_false _ _ _ _
      (fun he => digit_ne _ '<' hc0 (by decide) he.symm)
  rw [IsTraceMeasurement, stringData_mk]
  simp [h1, h2, h3]

/-- No stripping applies to a digits-dot-digits string: it has no leading
comma or '>' and no trailing '%'. -/
theorem strip_digits_dot (a b : List Char) (ha : a ≠ []) (hb : b ≠ [])
    (hA : ∀ c ∈ a, isDigitCh c = true) (hB : ∀ c ∈ b, isDigitCh c = true) :
    stripMeasure (String.mk (a ++ '.' :: b)) = String.mk (a ++ '.' :: b) := by
  obtain ⟨c0, a', rfl⟩ : ∃ c0 a', a = c0 :: a' := by
    cases a with
    | nil => exact absurd rfl ha
    | cons x t => exact ⟨x, t, rfl⟩
  simp only [List.cons_append]
  have hc0 : isDigitCh c0 = true := hA c0 (by simp)
  have hp1 : goTrimPfx (String.mk (c0 :: (a' ++ '.' :: b))) ",".data =
      String.mk (c0 :: (a' ++ '.' :: b)) := by
    rw [goTrimPfx, stringData_mk, show ",".data = ',' :: [] from rfl,
      listHasPfx_head_false _ _ _ _ (fun he => digit_ne _ ',' hc0 (by decide) he.symm)]
    simp
  have hp2 : goTrimPfx (String.mk (c0 :: (a' ++ '.' :: b))) ">".data =
      String.mk (c0 :: (a' ++ '.' :: b)) := by
    rw [goTrimPfx, stringData_mk, show ">".data = '>' :: [] from rfl,
      listHasPfx_head_false _ _ _ _ (fun he => digit_ne _ '>' hc0 (by decide) he.symm)]
    simp
  have hsfx : goTrimSfx (String.mk (c0 :: (a' ++ '.' :: b))) "%".data =
      String.mk (c0 :: (a' ++ '.' :: b)) := by
    rcases hrev : b.reverse with _ | ⟨d, t⟩
    · exact absurd (List.reverse_eq_nil_iff.mp hrev) hb
    · have hd : isDigitCh d = true := by
        refine hB d (List.mem_reverse.mp ?_)
        rw [hrev]
        simp
      have hlist : (c0 :: (a' ++ '.' :: b)).reverse =
          d :: (t ++ '.' :: a'.reverse ++ [c0]) := by
        simp [List.reverse_cons, List.reverse_append, hrev]
      rw [goTrimSfx, stringData_mk, show ("%".data).reverse = '%' :: [] from rfl, hlist,
        listHasPfx_head_false _ _ _ _ (fun he => digit_ne _ '%' hd (by decide) he.symm)]
      simp
  rw [stripMeasure, hp1, hp2, hsfx]

/-- No sign is consumed when the string starts with a digit. -/
theorem splitSign_digit (c0 : Char) (rest : List Char) (hc0 : isDigitCh c0 = true) :
    splitSign (c0 :: rest) = (false, c0 :: rest) := by
  simp [splitSign, digit_ne _ '-' hc0 (by decide), digit_ne _ '+' hc0 (by decide)]

/-- Case-insensitive comparison fails when the lowercased heads differ. -/
theorem lowerEq_head_false (c0 : Char) (rest : List Char) (p0 : Char) (pr : List Char)
    (h : ¬(lowerChar c0 = p0)) : lowerEq (c0 :: rest) (p0 :: pr) = false := by
  rw [lowerEq, decide_eq_false]
  intro heq
  rw [List.map_cons] at heq
  exact h (List.head_eq_of_cons_eq heq)

/-- A digits-dot-digits body has no hex prefix. -/
theorem isHexPfx_digits_dot (c0 : Char) (a' b : List Char)
    (hc0 : isDigitCh c0 = true) (hA' : ∀ c ∈ a', isDigitCh c = true) :
    isHexPfx (c0 :: (a' ++ '.' :: b)) = false := by
  cases a' with
  | nil => simp [isHexPfx]
  | cons c1 a'' =>
    have hc1 : isDigitCh c1 = true := hA' c1 (by simp)
    simp [isHexPfx, digit_ne _ 'x' hc1 (by decide), digit_ne _ 'X' hc1 (by decide)]

/-- The decimal reader on a digits-dot-digits body: integer digits, dot,
six-or-so fractional digits, no exponent. -/
theorem parseDec_digits_dot (a b : List Char) (ha : a ≠ [])
    (hA : ∀ c ∈ a, isDigitCh c = true) (hB : ∀ c ∈ b, isDigitCh c = true) :
    parseDec (a ++ '.' :: b) =
      .ok (((digitsVal a * 10 ^ b.length + digitsVal b : ℕ) : ℚ) /
        ((10 ^ b.length : ℕ) : ℚ)) := by
  have hsplit : takeWhileU isDigitU (a ++ '.' :: b) = (a, '.' :: b) := by
    refine takeWhileU_all_append _ a ('.' :: b)
      (fun c hc => by simp [isDigitU, hA c hc]) ?_
    intro c t hct
    obtain ⟨rfl, -⟩ : '.' = c ∧ b = t := by
      constructor <;> [exact List.head_eq_of_cons_eq hct; exact List.tail_eq_of_cons_eq hct]
    decide
  have htake : takeWhileU isDigitU b = (b, []) := by
    have h0 := takeWhileU_all_append isDigitU b []
      (fun c hc => by simp [isDigitU, hB c hc]) (fun c t hct => by simp at hct)
    simpa using h0
  have hfrac : parseFracPart isDigitU ('.' :: b) = (b, []) := by
    rw [parseFracPart, if_pos rfl, htake]
  have hcountA : a.countP (fun c => isDigitCh c) = a.length :=
    List.countP_eq_length.mpr fun c hc => by simpa using hA c hc
  have hcountB : b.countP (fun c => isDigitCh c) = b.length :=
    List.countP_eq_length.mpr fun c hc => by simpa using hB c hc
  have hlen : ¬(a.length + b.length = 0) := by
    have : a.length ≠ 0 := fun h0 => ha (List.length_eq_zero.mp h0)
    omega
  unfold parseDec
  simp only [hsplit, hfrac, hcountA, hcountB]
  rw [if_neg hlen]
  rfl

/-- The full ParseFloat model on a digits-dot-digits string: no sign, no
special, no hex prefix, no underscores, and in-range, so it returns the
exact decimal value. -/
theorem parseFloat64_digits_dot (a b : List Char) (ha : a ≠ []) (hb : b ≠ [])
    (hA : ∀ c ∈ a, isDigitCh c = true) (hB : ∀ c ∈ b, isDigitCh c = true)
    (hns : ¬(maxAbsF ≤ absQ (((digitsVal a * 10 ^ b.length + digitsVal b : ℕ) : ℚ) /
        ((10 ^ b.length : ℕ) : ℚ))))
    (hnz : ¬((((digitsVal a * 10 ^ b.length + digitsVal b : ℕ) : ℚ) /
          ((10 ^ b.length : ℕ) : ℚ)) ≠ 0 ∧
        absQ (((digitsVal a * 10 ^ b.length + digitsVal b : ℕ) : ℚ) /
          ((10 ^ b.length : ℕ) : ℚ)) ≤ minPosF)) :
    parseFloat64 (String.mk (a ++ '.' :: b)) =
      .ok (.finite (((digitsVal a * 10 ^ b.length + digitsVal b : ℕ) : ℚ) /
        ((10 ^ b.length : ℕ) : ℚ))) := by
  obtain ⟨c0, a', rfl⟩ : ∃ c0 a', a = c0 :: a' := by
    cases a with
    | nil => exact absurd rfl ha
    | cons x t => exact ⟨x, t, rfl⟩
  simp only [List.cons_append]
  have hc0 : isDigitCh c0 = true := hA c0 (by simp)
  have hA' : ∀ c ∈ a', isDigitCh c = true := fun c hc => hA c (by simp [hc])
  have hmem := mem_digits_dot c0 a' b hc0 hA' hB
  have hlow : lowerChar c0 = c0 := lowerChar_digit c0 hc0
  have hinf : lowerEq (c0 :: (a' ++ '.' :: b)) "inf".data = false := by
    rw [show "inf".data = 'i' :: "nf".data from rfl]
    exact lowerEq_head_false _ _ _ _
      (by rw [hlow]; exact digit_ne _ 'i' hc0 (by decide))
  have hinfy : lowerEq (c0 :: (a' ++ '.' :: b)) "infinity".data = false := by
    rw [show "infinity".data = 'i' :: "nfinity".data from rfl]
    exact lowerEq_head_false _ _ _ _
      (by rw [hlow]; exact digit_ne _ 'i' hc0 (by decide))
  have hnan : lowerEq (c0 :: (a' ++ '.' :: b)) "nan".data = false := by
    rw [show "nan".data = 'n' :: "an".data from rfl]
    exact lowerEq_head_false _ _ _ _
      (by rw [hlow]; exact digit_ne _ 'n' hc0 (by decide))
  have hund : ((c0 :: (a' ++ '.' :: b)).any fun c => decide (c = '_')) = false := by
    rw [List.any_eq_false]
    intro c hc
    rcases hmem c hc with hd | rfl
    · simpa using digit_ne _ '_' hd (by decide)
    · decide
  have hPD := parseDec_digits_dot (c0 :: a') b ha hA hB
  simp only [List.cons_append] at hPD
  unfold parseFloat64
  simp only [stringData_mk, splitSign_digit c0 _ hc0, hinf, hinfy, hnan,
    Bool.or_self, Bool.or_false, Bool.false_or, Bool.false_eq_true, if_false,
    isHexPfx_digits_dot c0 a' b hc0 hA', hPD]
  rw [if_neg (by simp [hund]), if_neg hns, if_neg hnz]

/-- FromString on a digits-dot-digits string falls through all classifiers
and parses the exact decimal value. -/
theorem fromString_digits_dot (m : Measure) (a b : List Char) (ha : a ≠ [])
    (hb : b ≠ [])
    (hA : ∀ c ∈ a, isDigitCh c = true) (hB : ∀ c ∈ b, isDigitCh c = true)
    (hns : ¬(maxAbsF ≤ absQ (((digitsVal a * 10 ^ b.length + digitsVal b : ℕ) : ℚ) /
        ((10 ^ b.length : ℕ) : ℚ))))
    (hnz : ¬((((digitsVal a * 10 ^ b.length + digitsVal b : ℕ) : ℚ) /
          ((10 ^ b.length : ℕ) : ℚ)) ≠ 0 ∧
        absQ (((digitsVal a * 10 ^ b.length + digitsVal b : ℕ) : ℚ) /
          ((10 ^ b.length : ℕ) : ℚ)) ≤ minPosF)) :
    m.FromString (String.mk (a ++ '.' :: b)) =
      (⟨measureSentinelize (.finite (((digitsVal a * 10 ^ b.length + digitsVal b : ℕ) : ℚ) /
        ((10 ^ b.length : ℕ) : ℚ)))⟩, none) := by
  rw [Measure.FromString, if_neg (by simp [isEmptyM_digits_dot a b ha hA]),
    if_neg (by simp [isErrorM_digits_dot a b ha hA hB]),
    if_neg (by simp [isTraceM_digits_dot a b ha hA hB]),
    strip_digits_dot a b ha hb hA hB,
    parseFloat64_digits_dot a b ha hb hA hB hns hnz]

/-- Round-half-even lands on the floor or the ceiling, within half a
unit. -/
theorem roundEven_bounds (x : ℚ) :
    ⌊x⌋ ≤ roundEven x ∧ roundEven x ≤ ⌊x⌋ + 1 ∧ |(roundEven x : ℚ) - x| ≤ 1 / 2 := by
  have hfl : (⌊x⌋ : ℚ) ≤ x := Int.floor_le x
  have hfu : x < ⌊x⌋ + 1 := Int.lt_floor_add_one x
  unfold roundEven
  split_ifs with h1 h2 h3 <;> refine ⟨by omega, by omega, ?_⟩
  · rw [abs_sub_comm, abs_of_nonneg (by linarith)]
    linarith
  · rw [abs_of_nonneg (by push_cast; linarith)]
    push_cast
    linarith
  · rw [abs_sub_comm, abs_of_nonneg (by linarith)]
    linarith
  · rw [abs_of_nonneg (by push_cast; linarith)]
    push_cast
    linarith

/-- Claim C6 (amended): for a Numeric measure whose value exceeds half a
unit of the six fractional digits %f prints (so the printed form is not
"0.000000") and is at most 100, serializing with AsSQL and re-parsing with
FromString succeeds and returns a Numeric value within half of the last
printed digit. -/
theorem numeric_roundtrip_sql (q : ℚ) (m : Measure) (hm : m.amount = .finite q)
    (hlo : 1 / 2000000 < q) (hhi : q ≤ 100) :
    ∃ q' : ℚ, (m.FromString m.AsSQL).1.amount = .finite q' ∧
      (m.FromString m.AsSQL).2 = none ∧ |q' - q| ≤ 1 / 2000000 := by
  obtain ⟨am⟩ := m
  replace hm : am = .finite q := hm
  subst hm
  have hq0 : (0 : ℚ) < q := lt_trans (by norm_num) hlo
  have hsql : (Measure.mk (.finite q)).AsSQL = fmtFixed6 q := by
    rw [Measure.AsSQL, if_neg, if_neg]
    · rfl
    · simp [Measure.IsZero]
    · simp [Measure.IsEmpty, Measure.IsTrace, goEq, measureEmptySentinel, ne_of_gt hq0]
  have habs : absQ q = q := by
    rw [absQ, if_neg (not_lt.mpr hq0.le)]
  set x : ℚ := absQ q * 1000000 with hxdef
  have hx : x = q * 1000000 := by rw [hxdef, habs]
  have hx1 : (1 : ℚ) / 2 < x := by rw [hx]; nlinarith
  have hx2 : x ≤ 100000000 := by rw [hx]; nlinarith
  obtain ⟨hb1, hb2, hb3⟩ := roundEven_bounds x
  have hfl2 : ⌊x⌋ ≤ 100000000 := by
    have h := Int.floor_le_floor hx2
    rwa [show ⌊(100000000 : ℚ)⌋ = 100000000 from by
      rw [show (100000000 : ℚ) = ((100000000 : ℤ) : ℚ) from by norm_num,
        Int.floor_intCast]] at h
  set nz : ℤ := roundEven x with hnzdef
  have hnz1 : 1 ≤ nz := by
    have habs3 := abs_le.mp hb3
    have hposQ : (0 : ℚ) < (nz : ℚ) := by linarith
    have hposZ : (0 : ℤ) < nz := by exact_mod_cast hposQ
    omega
  have hnz2 : nz ≤ 100000001 := by omega
  set n : ℕ := nz.toNat with hndef
  have hnn : (n : ℤ) = nz := Int.toNat_of_nonneg (by omega)
  have hnQ : (n : ℚ) = (nz : ℚ) := by exact_mod_cast congrArg (fun z : ℤ => (z : ℚ)) hnn
  have hn1 : 1 ≤ n := by omega
  have hn2 : n ≤ 100000001 := by omega
  set a : List Char := (digitsOf (n / 1000000)).map digitChar with hadef
  set b : List Char := (padLeft6 (n % 1000000)).map digitChar with hbdef
  have ha : a ≠ [] := by
    rw [hadef]
    simp [digitsOf_ne_nil]
  have hbne : b ≠ [] := by
    rw [hbdef]
    simp [padLeft6_ne_nil]
  have hA : ∀ c ∈ a, isDigitCh c = true := by
    intro c hc
    rw [hadef] at hc
    obtain ⟨d, hd, rfl⟩ := List.mem_map.mp hc
    exact isDigitCh_digitChar d (digitsOf_lt _ d hd)
  have hB : ∀ c ∈ b, isDigitCh c = true := by
    intro c hc
    rw [hbdef] at hc
    obtain ⟨d, hd, rfl⟩ := List.mem_map.mp hc
    exact isDigitCh_digitChar d (padLeft6_lt _ d hd)
  have hlenb : b.length = 6 := by
    rw [hbdef, List.length_map, padLeft6_length _ (Nat.mod_lt _ (by norm_num))]
  have hdva : digitsVal a = n / 1000000 := by
    rw [hadef, digitsVal_map_digitChar _ (digitsOf_lt _), digitsOf_val]
  have hdvb : digitsVal b = n % 1000000 := by
    rw [hbdef, digitsVal_map_digitChar _ (padLeft6_lt _), padLeft6_val]
  have hpow : (10 : ℕ) ^ 6 = 1000000 := by norm_num
  have hvaln : (digitsVal a * 10 ^ b.length + digitsVal b : ℕ) = n := by
    rw [hdva, hdvb, hlenb, hpow]
    omega
  set val : ℚ :=
    ((digitsVal a * 10 ^ b.length + digitsVal b : ℕ) : ℚ) / ((10 ^ b.length : ℕ) : ℚ)
    with hvaldef
  have hval : val = (n : ℚ) / 1000000 := by
    rw [hvaldef, hvaln, hlenb, hpow]
    norm_num
  have hvpos : 0 < val := by
    rw [hval]
    have : (1 : ℚ) ≤ (n : ℚ) := by exact_mod_cast hn1
    positivity
  have hvle : val ≤ 101 := by
    rw [hval]
    have : (n : ℚ) ≤ 100000001 := by exact_mod_cast hn2
    rw [div_le_iff (by norm_num)]
    linarith
  have habsval : absQ val = val := by
    rw [absQ, if_neg (not_lt.mpr hvpos.le)]
  have hns : ¬(maxAbsF ≤ absQ val) := by
    rw [habsval]
    have h2 : (2 : ℕ) ^ 970 ≤ 2 ^ 1024 := Nat.pow_le_pow_right (by norm_num) (by norm_num)
    have hbig : (101 : ℚ) < maxAbsF := by
      rw [maxAbsF, Nat.cast_sub h2]
      push_cast
      norm_num
    exact not_le.mpr (lt_of_le_of_lt hvle hbig)
  have hnzr : ¬(val ≠ 0 ∧ absQ val ≤ minPosF) := by
    rintro ⟨-, hle⟩
    rw [habsval, hval] at hle
    have hge : (1 : ℚ) / 1000000 ≤ (n : ℚ) / 1000000 :=
      (div_le_div_right (by norm_num)).mpr (by exact_mod_cast hn1)
    have hsmall : minPosF < 1 / 1000000 := by
      rw [minPosF, div_lt_div_iff (by positivity) (by norm_num)]
      push_cast
      have hpw : (1000000 : ℚ) < 2 ^ 1075 := by norm_num
      linarith
    linarith
  have hstr : fmtFixed6 q = String.mk (a ++ '.' :: b) := by
    unfold fmtFixed6
    simp only [if_neg (not_lt.mpr hq0.le), List.nil_append]
  have happly := fromString_digits_dot (Measure.mk (.finite q)) a b ha hbne hA hB hns hnzr
  rw [← hvaldef] at happly
  have hsent : measureSentinelize (.finite val) = .finite val := by
    have h1 : ¬(goEq (.finite val) (.finite 0) = true) := by
      simp only [goEq, decide_eq_true_eq]
      exact ne_of_gt hvpos
    have h2 : ¬(goLt (.finite val) (.finite 0) = true) := by
      simp only [goLt, decide_eq_true_eq]
      exact not_lt.mpr hvpos.le
    rw [measureSentinelize, if_neg h1, if_neg h2]
  refine ⟨val, ?_, ?_, ?_⟩
  · rw [hsql, hstr, happly]
    simpa using hsent
  · rw [hsql, hstr, happly]
  · have hq : q = x / 1000000 := by
      rw [hx]
      field_simp
    have hvx : val - q = ((nz : ℚ) - x) / 1000000 := by
      rw [hval, hq, ← hnQ]
      ring
    rw [hvx, abs_div, abs_of_pos (by norm_num : (0 : ℚ) < 1000000)]
    calc |(nz : ℚ) - x| / 1000000 ≤ (1 / 2) / 1000000 :=
      (div_le_div_right (by norm_num)).mpr hb3
    _ = 1 / 2000000 := by norm_num

/-- Counterexample for claim C6 as stated: the measure holding one
billionth is in the Numeric state with a value in [0, 100], but AsSQL
prints "0.000000" and re-parsing that yields the Zero state (amount NaN),
not a Numeric measure of any value. -/
theorem tiny_numeric_roundtrip_hits_zero :
    ((Measure.mk (.finite (1 / 1000000000))).IsEmpty = false ∧
      (Measure.mk (.finite (1 / 1000000000))).IsZero = false ∧
      (Measure.mk (.finite (1 / 1000000000))).IsTrace = false) ∧
    ((0 : ℚ) ≤ 1 / 1000000000 ∧ (1 / 1000000000 : ℚ) ≤ 100) ∧
    (Measure.mk (.finite (1 / 1000000000))).AsSQL = "0.000000" ∧
    (Measure.mk (.finite (1 / 1000000000))).FromString
        ((Measure.mk (.finite (1 / 1000000000))).AsSQL) = (⟨GoFloat.nan⟩, none) ∧
    (¬∃ q' : ℚ,
      ((Measure.mk (.finite (1 / 1000000000))).FromString
          ((Measure.mk (.finite (1 / 1000000000))).AsSQL)).1.amount = .finite q') := by
  have hres : (Measure.mk (.finite (1 / 1000000000))).FromString
      ((Measure.mk (.finite (1 / 1000000000))).AsSQL) = (⟨GoFloat.nan⟩, none) := by
    with_unfolding_all decide
  refine ⟨by with_unfolding_all decide, ⟨by norm_num, by norm_num⟩,
    by with_unfolding_all decide, hres, ?_⟩
  rintro ⟨q', hq'⟩
  rw [hres] at hq'
  simp at hq'

/-- Witness for the amended round-trip claim at the value 45.3. -/
theorem numeric_roundtrip_sql_witness :
    (1 / 2000000 : ℚ) < 453 / 10 ∧ (453 / 10 : ℚ) ≤ 100 ∧
    ∃ q' : ℚ,
      ((⟨GoFloat.finite (453 / 10)⟩ : Measure).FromString
          (⟨GoFloat.finite (453 / 10)⟩ : Measure).AsSQL).1.amount = .finite q' ∧
      ((⟨GoFloat.finite (453 / 10)⟩ : Measure).FromString
          (⟨GoFloat.finite (453 / 10)⟩ : Measure).AsSQL).2 = none ∧
      |q' - 453 / 10| ≤ 1 / 2000000 :=
  ⟨by norm_num, by norm_num,
    numeric_roundtrip_sql (453 / 10) ⟨GoFloat.finite (453 / 10)⟩ rfl
      (by norm_num) (by norm_num)⟩
